import Mathlib

/-!
Verification of the viz-rs streaming frame-processing pipeline.

This file gives a shallow embedding, in Lean 4, of the parts of the
viz-rs source that the verified properties talk about:

* `src/channeled.rs`   — the mono/stereo tagged container (`Channeled`),
* `src/viz.rs`         — the leveling helpers `normalize_between` and
  `constrain_normalized`,
* `src/sliding.rs`     — the sliding framer,
* `src/fft.rs`         — the spectral stage wrapper,
* `src/exponential_smoothing.rs` — the recursive smoothing stage,
* `src/savitzky_golay.rs` — coefficient synthesis and apply,
* `src/binner.rs`      — perceptual frequency binning.

Modelling conventions: Rust `f64` arithmetic is modelled by exact `ℚ`
arithmetic (the verified statements are about exact arithmetic aside from
rounding-robust concrete inputs); `Rational64` is modelled by `ℚ` with
division by zero made explicit as an `Except` failure, mirroring the panic
of `num_rational`; Rust panics and `anyhow` errors are both modelled as
`Except.error`; end-of-stream (`Ok(None)`) is modelled as `Except.ok none`.
-/

namespace VizRs

/-- The mono/stereo tagged container from `src/channeled.rs`. -/
inductive Channeled (α : Type) where
  | Mono : α → Channeled α
  | Stereo : α → α → Channeled α
  deriving DecidableEq, Repr

/-- `Channeled::map` from `src/channeled.rs`: transform the payload,
keeping the variant. -/
def Channeled.map {α β : Type} (f : α → β) : Channeled α → Channeled β
  | .Stereo a b => .Stereo (f a) (f b)
  | .Mono a => .Mono (f a)

/-- `Channeled::zip` from `src/channeled.rs`: pair two values when the
variants agree, `none` otherwise. -/
def Channeled.zip {α β : Type} : Channeled α → Channeled β → Option (Channeled (α × β))
  | .Stereo a b, o =>
    match o with
    | .Stereo oa ob => some (.Stereo (a, oa) (b, ob))
    | .Mono _ => none
  | .Mono v, o =>
    match o with
    | .Mono ov => some (.Mono (v, ov))
    | .Stereo _ _ => none

/-- Variant discriminator: `true` on `Stereo`, `false` on `Mono`. -/
def Channeled.isStereo {α : Type} : Channeled α → Bool
  | .Stereo _ _ => true
  | .Mono _ => false

/-- `normalize_between` from `src/viz.rs`: clamp-and-rescale a dB value
into `[0,1]`. -/
def normalize_between (v vmin vmax : ℚ) : ℚ :=
  if v < vmin then 0
  else if v > vmax then 1
  else (v - vmin) / (vmax - vmin)

/-- `constrain_normalized` from `src/viz.rs`: clamp a value into `[0,1]`. -/
def constrain_normalized (v : ℚ) : ℚ :=
  if v > 1 then 1
  else if v < 0 then 0
  else v

/-- C9: `Channeled::map` always returns a value of the same variant as its
input, and `Channeled::zip` returns a paired value exactly when the two
inputs share the same variant (and `none`, the channel-mismatch signal,
when the variants differ). -/
theorem channeled_map_preserves_variant_and_zip_iff :
    (∀ (α β : Type) (f : α → β) (x : Channeled α), (x.map f).isStereo = x.isStereo) ∧
    (∀ (α β : Type) (a : Channeled α) (b : Channeled β),
      (∃ z, a.zip b = some z) ↔ a.isStereo = b.isStereo) := by
  constructor
  · intro α β f x
    cases x <;> rfl
  · intro α β a b
    cases a <;> cases b <;> simp [Channeled.zip, Channeled.isStereo]

/-- C8 counterexample: `normalize_between` is not idempotent at the
program's own dB range `[-45, -5.5]`. A first application sends `-45` to
`0`; a second application sends `0` (which exceeds `vmax = -5.5`) to `1`. -/
theorem normalize_between_not_idempotent :
    ¬ (normalize_between (normalize_between (-45) (-45) (-11/2)) (-45) (-11/2)
        = normalize_between (-45) (-45) (-11/2)) := by
  norm_num [normalize_between]

/-- C8 (amended): the `[0,1]` constraint function `constrain_normalized`
is idempotent: applying it twice equals applying it once, for every input,
in or out of `[0,1]`. -/
theorem constrain_normalized_idempotent (v : ℚ) :
    constrain_normalized (constrain_normalized v) = constrain_normalized v := by
  unfold constrain_normalized
  split_ifs <;> first | rfl | linarith

/-! ## Sliding framer, `src/sliding.rs`

The sample source (`Samples` trait) is modelled as the list of its
remaining samples: `next_sample` pops the head, `num_samples_remain` is
the length. -/

/-- State of `SlidingFrame`: the remaining source samples, the internal
buffer, the frame `size` and the `stride`. -/
structure SlidingState (α : Type) where
  samples : List α
  buf : List α
  size : ℕ
  stride : ℕ
  deriving Repr

/-- `SlidingFrame::ensure_buf_filled`: pull `min(remaining, size - len)`
samples from the source into the buffer. -/
def ensureBufFilled {α : Type} (s : SlidingState α) : SlidingState α :=
  let nLoad := min s.samples.length (s.size - s.buf.length)
  { s with buf := s.buf ++ s.samples.take nLoad, samples := s.samples.drop nLoad }

/-- Tail of `SlidingFrame::next_frame` after the stride drop: refill from
the source, then emit the buffer (copied to `cur_buf`) unless it is
empty. -/
def slidingEmit {α : Type} (s1 : SlidingState α) : Option (List α) × SlidingState α :=
  let s2 := ensureBufFilled s1
  if s2.buf.isEmpty then (none, s2) else (some s2.buf, s2)

/-- `SlidingFrame::next_frame`: drop the oldest `stride` elements (or
clear and signal end-of-stream when fewer than `stride` remain), refill
from the source, and emit the buffer unless it is empty. -/
def nextFrameSliding {α : Type} (s : SlidingState α) : Option (List α) × SlidingState α :=
  if s.buf.isEmpty = false ∧ s.buf.length < s.stride then
    (none, { s with buf := [] })
  else
    slidingEmit (if s.buf.isEmpty then s else { s with buf := s.buf.drop s.stride })

/-- Case analysis for `slidingEmit`: either a nonempty buffer is emitted,
or end-of-stream is signalled with an empty buffer. -/
theorem slidingEmit_spec {α : Type} (s1 : SlidingState α) :
    (slidingEmit s1).1 = some (slidingEmit s1).2.buf ∧ (slidingEmit s1).2.buf ≠ []
      ∨ (slidingEmit s1).1 = none ∧ (slidingEmit s1).2.buf = [] := by
  unfold slidingEmit
  generalize ensureBufFilled s1 = t
  cases htb : t.buf with
  | nil => right; simp [htb]
  | cons a l => left; simp [htb]

/-- C4 counterexample: with frame size 2, stride 1, and a source holding a
single sample, the framer emits the one-element frame `[5]` — a frame
strictly shorter than the configured frame size — instead of signalling
end-of-stream. -/
theorem sliding_emits_short_frame :
    (nextFrameSliding { samples := [(5:ℚ)], buf := [], size := 2, stride := 1 }).1
        = some [5]
      ∧ (1:ℕ) < 2 := by
  exact ⟨rfl, by norm_num⟩

/-- C4 (amended): the sliding framer signals end-of-stream exactly when
its buffer ends up empty (fewer than `stride` buffered elements remained,
or nothing could be pulled at all); an emitted frame is never empty, but
may be shorter than the configured frame size when the source is
exhausted. -/
theorem sliding_no_empty_frame {α : Type} (s : SlidingState α) :
    (∀ out, (nextFrameSliding s).1 = some out → out ≠ [])
    ∧ ((nextFrameSliding s).1 = none → (nextFrameSliding s).2.buf = []) := by
  unfold nextFrameSliding
  by_cases h : s.buf.isEmpty = false ∧ s.buf.length < s.stride
  · rw [if_pos h]
    exact ⟨fun out hout => absurd hout (by simp), fun _ => rfl⟩
  · rw [if_neg h]
    rcases slidingEmit_spec (if s.buf.isEmpty then s else { s with buf := s.buf.drop s.stride })
      with ⟨hsome, hne⟩ | ⟨hnone, hbuf⟩
    · refine ⟨fun out hout => ?_, fun hn => absurd (hsome ▸ hn) (by simp)⟩
      rw [hsome] at hout
      exact (Option.some_inj.mp hout) ▸ hne
    · exact ⟨fun out hout => absurd (hnone ▸ hout) (by simp), fun _ => hbuf⟩

/-- C4 witness: a buffer holding one element with stride 3 is cleared and
end-of-stream is signalled; the resulting buffer is empty. -/
theorem sliding_no_empty_frame_witness :
    (nextFrameSliding { samples := ([] : List ℚ), buf := [7], size := 2, stride := 3 }).2.buf
      = [] :=
  (sliding_no_empty_frame _).2 rfl

/-! ## Spectral stage, `src/fft.rs`

The discrete Fourier transform itself comes from the external `fftw`
crate (spec: a correct, already-available transform may be used), so it is
a parameter `F` here, together with the complex modulus `nrm`; the code
under verification is the buffer/channel contract around it: zero padding,
dropping the index-0 coefficient, and the declared output size. -/

/-- `consume_input` for one channel: the fixed-size transform input buffer
after writing the frame at indices `0..len` and zero-filling the rest
(`fill_rest_zero`). In-range indexing (`len ≤ nIn`) is assumed by the
surrounding code. -/
def consumedInput (nIn : ℕ) (x : List ℚ) : List ℚ :=
  (List.range nIn).map (fun i => x.getD i 0)

/-- `perform_transform_once`: run the transform, then push the modulus of
every output coefficient, skipping index 0. -/
def performTransformOnce {γ : Type} (F : List ℚ → List γ) (nrm : γ → ℚ)
    (input : List ℚ) : List ℚ :=
  ((F input).drop 1).map nrm

/-- One channel of `FramedFft::map`: fill the input buffer (with zero
padding) and transform. -/
def fftMapMono {γ : Type} (F : List ℚ → List γ) (nrm : γ → ℚ) (nIn : ℕ)
    (x : List ℚ) : List ℚ :=
  performTransformOnce F nrm (consumedInput nIn x)

/-- Extract the payloads of an all-`Mono` frame; a `Stereo` element is the
`"mixed mono/stereo?"` error of `consume_input`. -/
def monoValues : List (Channeled ℚ) → Except String (List ℚ)
  | [] => .ok []
  | .Mono v :: rest => do
      let vs ← monoValues rest
      pure (v :: vs)
  | .Stereo _ _ :: _ => .error "mixed mono/stereo?"

/-- Extract the two channels of an all-`Stereo` frame; a `Mono` element is
the `"mixed mono/stereo?"` error of `consume_input`. -/
def stereoValues : List (Channeled ℚ) → Except String (List ℚ × List ℚ)
  | [] => .ok ([], [])
  | .Stereo a b :: rest => do
      let (la, lb) ← stereoValues rest
      pure (a :: la, b :: lb)
  | .Mono _ :: _ => .error "mixed mono/stereo?"

/-- `FramedFft::map`: the first element of the frame fixes the channel
variant of the transform buffers (an empty frame panics on `input[0]`);
each channel is transformed once; `zip_stereo_output` indexes the right
channel at the left channel's indices. -/
def fftMap {γ : Type} (F : List ℚ → List γ) (nrm : γ → ℚ) (nIn : ℕ)
    (input : List (Channeled ℚ)) : Except String (List (Channeled ℚ)) :=
  match input with
  | [] => .error "index out of bounds"
  | .Mono _ :: _ => do
      let xs ← monoValues input
      pure ((fftMapMono F nrm nIn xs).map Channeled.Mono)
  | .Stereo _ _ :: _ => do
      let lr ← stereoValues input
      let ra := fftMapMono F nrm nIn lr.1
      let rb := fftMapMono F nrm nIn lr.2
      if rb.length < ra.length then .error "index out of bounds"
      else pure (List.zipWith Channeled.Stereo ra rb)

/-- `FramedFft::map_frame_size`: the declared output size ignores the
argument and is `cap / 2` (floor division) for configured size `cap`. -/
def fftMapFrameSize (nIn : ℕ) (_orig : ℕ) : ℕ :=
  nIn / 2

/-- The transform input buffer of a channel whose frame has at most `nIn`
samples is the frame zero-padded to length `nIn`. -/
theorem consumedInput_eq_append {nIn : ℕ} {x : List ℚ} (h : x.length ≤ nIn) :
    consumedInput nIn x = x ++ List.replicate (nIn - x.length) 0 := by
  apply List.ext_getElem
  · simp [consumedInput, Nat.add_sub_cancel' h]
  · intro i h1 h2
    simp only [consumedInput, List.length_map, List.length_range] at h1
    simp only [consumedInput, List.getElem_map, List.getElem_range]
    by_cases hi : i < x.length
    · rw [List.getElem_append_left hi, List.getD_eq_getElem _ _ hi]
    · rw [List.getElem_append_right (le_of_not_lt hi)]
      simp only [List.getElem_replicate]
      exact List.getD_eq_default _ _ (le_of_not_lt hi)

/-- Extracting the payloads of an all-`Mono` frame succeeds. -/
theorem monoValues_map (xs : List ℚ) :
    monoValues (xs.map Channeled.Mono) = .ok xs := by
  induction xs with
  | nil => rfl
  | cons a l ih => simp [monoValues, ih]

/-- Extracting the channels of an all-`Stereo` frame succeeds. -/
theorem stereoValues_zipWith (la lb : List ℚ) (h : la.length = lb.length) :
    stereoValues (List.zipWith Channeled.Stereo la lb) = .ok (la, lb) := by
  induction la generalizing lb with
  | nil =>
    cases lb with
    | nil => rfl
    | cons b bs => simp at h
  | cons a as ih =>
    cases lb with
    | nil => simp at h
    | cons b bs =>
      simp only [List.length_cons, Nat.add_right_cancel_iff] at h
      simp [stereoValues, ih bs h]

/-- One transformed channel has `nIn / 2` output values. -/
theorem fftMapMono_length {γ : Type} (F : List ℚ → List γ) (nrm : γ → ℚ) (nIn : ℕ)
    (hF : ∀ y, (F y).length = nIn / 2 + 1) (x : List ℚ) :
    (fftMapMono F nrm nIn x).length = nIn / 2 := by
  simp [fftMapMono, performTransformOnce, hF]

/-- Value `j` of one transformed channel is the modulus of transform
coefficient `j + 1`. -/
theorem fftMapMono_get {γ : Type} (F : List ℚ → List γ) (nrm : γ → ℚ) (nIn : ℕ)
    (x : List ℚ) (j : ℕ) :
    (fftMapMono F nrm nIn x)[j]? = ((F (consumedInput nIn x))[j + 1]?).map nrm := by
  simp [fftMapMono, performTransformOnce, List.getElem?_drop, Nat.add_comm 1 j]

/-- C5: for every nonempty frame that fits the configured size `nIn` and
every channel, the spectral stage emits the modulus (`nrm`) of each
transform coefficient with index 1 and above — the index-0 zero-frequency
coefficient is dropped — computed on the frame zero-padded to `nIn`; the
emitted frame has `nIn / 2` values and the declared output frame size is
`⌊nIn / 2⌋`. The transform `F` is the external `fftw` real-to-complex
plan, whose output has `nIn / 2 + 1` coefficients. -/
theorem fft_drops_dc_and_halves_size {γ : Type} (F : List ℚ → List γ) (nrm : γ → ℚ)
    (nIn : ℕ) (hF : ∀ y, (F y).length = nIn / 2 + 1) :
    (∀ orig, fftMapFrameSize nIn orig = nIn / 2)
    ∧ (∀ xs : List ℚ, xs ≠ [] → xs.length ≤ nIn →
        ∃ out, fftMap F nrm nIn (xs.map Channeled.Mono) = .ok out
          ∧ out.length = nIn / 2
          ∧ ∀ j, out[j]?
              = ((F (xs ++ List.replicate (nIn - xs.length) 0))[j + 1]?).map
                  (fun c => Channeled.Mono (nrm c)))
    ∧ (∀ la lb : List ℚ, la ≠ [] → la.length = lb.length → la.length ≤ nIn →
        ∃ out, fftMap F nrm nIn (List.zipWith Channeled.Stereo la lb) = .ok out
          ∧ out.length = nIn / 2
          ∧ ∀ j, j < nIn / 2 →
              ∃ ca cb, (F (la ++ List.replicate (nIn - la.length) 0))[j + 1]? = some ca
                ∧ (F (lb ++ List.replicate (nIn - lb.length) 0))[j + 1]? = some cb
                ∧ out[j]? = some (Channeled.Stereo (nrm ca) (nrm cb))) := by
  refine ⟨fun _ => rfl, ?_, ?_⟩
  · intro xs hne hlen
    cases xs with
    | nil => exact absurd rfl hne
    | cons a l =>
      have h1 : monoValues (Channeled.Mono a :: List.map Channeled.Mono l)
          = .ok (a :: l) := monoValues_map (a :: l)
      refine ⟨(fftMapMono F nrm nIn (a :: l)).map Channeled.Mono, ?_, ?_, ?_⟩
      · simp [fftMap, h1]
      · simp [fftMapMono_length F nrm nIn hF]
      · intro j
        rw [List.getElem?_map, fftMapMono_get, consumedInput_eq_append hlen]
        cases (F ((a :: l) ++ List.replicate (nIn - (a :: l).length) 0))[j + 1]? <;> rfl
  · intro la lb hne hll hlen
    cases la with
    | nil => exact absurd rfl hne
    | cons a as =>
      cases lb with
      | nil => simp at hll
      | cons b bs =>
        have hra := fftMapMono_length F nrm nIn hF (a :: as)
        have hrb := fftMapMono_length F nrm nIn hF (b :: bs)
        have hz := stereoValues_zipWith (a :: as) (b :: bs) hll
        rw [List.zipWith_cons_cons] at hz ⊢
        refine ⟨List.zipWith Channeled.Stereo (fftMapMono F nrm nIn (a :: as))
          (fftMapMono F nrm nIn (b :: bs)), ?_, ?_, ?_⟩
        · simp only [fftMap, hz]
          show (if (fftMapMono F nrm nIn (b :: bs)).length
                  < (fftMapMono F nrm nIn (a :: as)).length
              then (Except.error "index out of bounds" : Except String (List (Channeled ℚ)))
              else pure (List.zipWith Channeled.Stereo (fftMapMono F nrm nIn (a :: as))
                (fftMapMono F nrm nIn (b :: bs)))) = _
          rw [if_neg (by rw [hra, hrb]; exact lt_irrefl _)]
          rfl
        · rw [List.length_zipWith, hra, hrb, min_self]
        · intro j hj
          have hjA : j + 1 < (F (consumedInput nIn (a :: as))).length := by
            rw [hF]; omega
          have hjB : j + 1 < (F (consumedInput nIn (b :: bs))).length := by
            rw [hF]; omega
          refine ⟨(F (consumedInput nIn (a :: as)))[j + 1],
            (F (consumedInput nIn (b :: bs)))[j + 1], ?_, ?_, ?_⟩
          · rw [← consumedInput_eq_append hlen]
            exact List.getElem?_eq_getElem hjA
          · rw [← consumedInput_eq_append (hll ▸ hlen)]
            exact List.getElem?_eq_getElem hjB
          · rw [List.getElem?_zipWith, fftMapMono_get, fftMapMono_get,
              List.getElem?_eq_getElem hjA, List.getElem?_eq_getElem hjB]
            rfl

/-- C5 witness: a concrete four-sample configuration with a three-element
transform output; the spectral stage emits a two-element frame. -/
theorem fft_drops_dc_and_halves_size_witness :
    ∃ out, fftMap (fun _ => [(10:ℚ), 20, 30]) id 4 ([1, 2, 3].map Channeled.Mono)
        = .ok out ∧ out.length = 2 := by
  obtain ⟨out, h1, h2, _⟩ := (fft_drops_dc_and_halves_size (fun _ => [(10:ℚ), 20, 30]) id 4
    (fun _ => rfl)).2.1 [1, 2, 3] (by simp) (by norm_num)
  exact ⟨out, h1, h2⟩

/-! ## Exponential smoothing, `src/exponential_smoothing.rs`

The upstream `Framed` source is modelled as the list of all its frames
plus a cursor: `next_frame` yields the frame under the cursor and
advances it, `num_frames` and `num_full_frames` are its length. -/

/-- State of `ExponentialSmoothing`: the modelled source, the current
frame `cur`, the history `previous` (newest first), the history depth
`nPrev` (= seek-back limit), the blend factor `alpha`, and the tick
counter `atIdx` (the `at` field). -/
structure ExpState where
  sourceFrames : List (List (Channeled ℚ))
  sourcePos : ℕ
  cur : List (Channeled ℚ)
  previous : List (List (Channeled ℚ))
  nPrev : ℕ
  alpha : ℚ
  atIdx : ℕ
  deriving Repr

/-- The history push inside `next_frame` (for `at > 0`): move `cur` to
the front of `previous`, reusing (= evicting) the oldest retained frame
once the depth limit is reached. Removing from an empty history is the
`Vec::remove` panic. -/
def pushPrev (cur : List (Channeled ℚ)) (previous : List (List (Channeled ℚ)))
    (nPrev : ℕ) : Except String (List (List (Channeled ℚ))) :=
  if previous.length < nPrev then .ok (cur :: previous)
  else
    match previous with
    | [] => .error "removal index (is 0) should be < len (is 0)"
    | _ :: _ => .ok (cur :: previous.dropLast)

/-- One element of the smoothing loop:
`cur = cur * (1 - alpha) + prev * alpha` per channel, with the
channel-mismatch error of the source. -/
def smoothOne (alpha : ℚ) (prev cur : Channeled ℚ) : Except String (Channeled ℚ) :=
  match cur with
  | .Stereo ca cb =>
    match prev with
    | .Stereo pa pb => .ok (.Stereo (ca * (1 - alpha) + pa * alpha) (cb * (1 - alpha) + pb * alpha))
    | .Mono _ => .error "mismatch, expected stereo got mono for prev, mixed data!"
  | .Mono cv =>
    match prev with
    | .Mono pv => .ok (.Mono (cv * (1 - alpha) + pv * alpha))
    | .Stereo _ _ => .error "mismatch, expected stereo got mono for prev, mixed data!"

/-- The smoothing loop of `next_frame`: write the blend of `prev` and
`cur` into every index of `prev`; indices of `cur` beyond `prev` keep
their raw value; a `cur` shorter than `prev` is the
`"should have same len"` panic. -/
def smoothInto (alpha : ℚ) : List (Channeled ℚ) → List (Channeled ℚ) →
    Except String (List (Channeled ℚ))
  | [], cur => .ok cur
  | _ :: _, [] => .error "should have same len"
  | p :: ps, c :: cs => do
      let v ← smoothOne alpha p c
      let rest ← smoothInto alpha ps cs
      .ok (v :: rest)

/-- `ExponentialSmoothing::next_frame`: end-of-stream checks, the history
push, and the recursive blend with the previous *output*. -/
def expNextFrame (s : ExpState) : Except String (Option (List (Channeled ℚ)) × ExpState) :=
  if s.atIdx = s.sourceFrames.length then .ok (none, s)
  else
    match s.sourceFrames[s.sourcePos]? with
    | none => .ok (none, s)
    | some next =>
      if s.atIdx > 0 then do
        let prev1 ← pushPrev s.cur s.previous s.nPrev
        match prev1 with
        | [] => .error "we should have prev if at > 0"
        | h :: _ => do
          let newCur ← smoothInto s.alpha h next
          .ok (some newCur,
            { s with sourcePos := s.sourcePos + 1, cur := newCur, previous := prev1,
                     atIdx := s.atIdx + 1 })
      else
        .ok (some (s.cur ++ next),
          { s with sourcePos := s.sourcePos + 1, cur := s.cur ++ next, atIdx := s.atIdx + 1 })

/-- Forward-seek loop of `seek_frame`: call `next_frame` `k` times,
propagating errors and discarding output. -/
def expSeekLoop : ℕ → ExpState → Except String ExpState
  | 0, s => .ok s
  | k + 1, s => do
      let r ← expNextFrame s
      expSeekLoop k r.2

/-- The modelled source's `seek_frame`: move the cursor, failing outside
the stream. -/
def srcSeekFrame (s : ExpState) (n : ℤ) : Except String ExpState :=
  if 0 ≤ (s.sourcePos : ℤ) + n ∧ (s.sourcePos : ℤ) + n ≤ (s.sourceFrames.length : ℤ) then
    .ok { s with sourcePos := ((s.sourcePos : ℤ) + n).toNat }
  else .error "source seek out of range"

/-- `ExponentialSmoothing::seek_frame`: bounds check against
`num_full_frames`, then for a backward seek the off-by-one history guard
(`max_prev = previous.len() - 1`), the drain of skipped history entries,
and the restore of `cur` from the history head; for a forward seek, a
replay of `next_frame`. The final `at` update re-adds `n`. -/
def expSeekFrame (s : ExpState) (n : ℤ) : Except String ExpState :=
  if n = 0 then .ok s
  else
    if ((s.atIdx : ℤ) + n < 0 ∨ (s.atIdx : ℤ) + n ≥ (s.sourceFrames.length : ℤ)) then
      .error "cannot seek past bounds"
    else do
      let s1 ←
        if n < 0 then
          match s.previous with
          | [] => .error "attempt to subtract with overflow"
          | p0 :: rest =>
            let maxPrev := (p0 :: rest).length - 1
            if maxPrev < (-n).toNat then
              .error ("cannot seek further than " ++ toString maxPrev ++ " frames back")
            else
              let s2 := { s with cur := p0, previous := rest.drop ((-n).toNat - 1) }
              srcSeekFrame s2 n
        else
          expSeekLoop n.toNat s
      if (s1.atIdx : ℤ) + n < 0 then .error "cannot seek to before start!"
      else .ok { s1 with atIdx := ((s1.atIdx : ℤ) + n).toNat }

/-- Binding a successful `Except` computation just applies the
continuation. -/
theorem ok_bind {ε α β : Type} (v : α) (f : α → Except ε β) :
    (do let x ← Except.ok v; f x : Except ε β) = f v := rfl

/-- Binding a failed `Except` computation propagates the failure. -/
theorem error_bind {ε α β : Type} (e : ε) (f : α → Except ε β) :
    (do let x ← Except.error e; f x : Except ε β) = Except.error e := rfl

/-- When the seek-back limit is at least one, the history push of
`next_frame` succeeds and puts the previous output at the front. -/
theorem pushPrev_ok (cur : List (Channeled ℚ)) (previous : List (List (Channeled ℚ)))
    (nPrev : ℕ) (h : 1 ≤ nPrev) :
    ∃ t, pushPrev cur previous nPrev = .ok (cur :: t) := by
  unfold pushPrev
  by_cases hl : previous.length < nPrev
  · exact ⟨previous, by rw [if_pos hl]⟩
  · cases previous with
    | nil => exact absurd (show ([] : List (List (Channeled ℚ))).length < nPrev by simpa using h) hl
    | cons a l => exact ⟨(a :: l).dropLast, by rw [if_neg hl]⟩

/-- Pointwise description of the smoothing loop: position `i` of the
output blends position `i` of the previous output with position `i` of
the incoming frame as `alpha * previous + (1 - alpha) * current`. -/
theorem smoothInto_spec (alpha : ℚ) :
    ∀ (prev cur out : List (Channeled ℚ)), smoothInto alpha prev cur = .ok out →
      ∀ i, i < prev.length →
        ∃ p c pc, prev[i]? = some p ∧ cur[i]? = some c ∧ Channeled.zip p c = some pc
          ∧ out[i]? = some (pc.map (fun q => alpha * q.1 + (1 - alpha) * q.2)) := by
  intro prev
  induction prev with
  | nil => intro cur out _ i hi; exact absurd hi (by simp)
  | cons p ps ih =>
    intro cur out h i hi
    cases cur with
    | nil => exact absurd h (by simp [smoothInto])
    | cons c cs =>
      rw [smoothInto] at h
      cases hv : smoothOne alpha p c with
      | error e => rw [hv, error_bind] at h; exact absurd h (by simp)
      | ok v =>
        rw [hv, ok_bind] at h
        cases hr : smoothInto alpha ps cs with
        | error e => rw [hr, error_bind] at h; exact absurd h (by simp)
        | ok rest =>
          rw [hr, ok_bind] at h
          cases h
          cases i with
          | zero =>
            refine ⟨p, c, ?_⟩
            cases p with
            | Mono pv =>
              cases c with
              | Mono cv =>
                rw [smoothOne] at hv
                cases hv
                exact ⟨.Mono (pv, cv), by simp, by simp, rfl, by
                  simp only [List.getElem?_cons_zero, Option.some.injEq, Channeled.map]
                  rw [Channeled.Mono.injEq]
                  ring⟩
              | Stereo ca cb => rw [smoothOne] at hv; exact absurd hv (by simp)
            | Stereo pa pb =>
              cases c with
              | Mono cv => rw [smoothOne] at hv; exact absurd hv (by simp)
              | Stereo ca cb =>
                rw [smoothOne] at hv
                cases hv
                exact ⟨.Stereo (pa, ca) (pb, cb), by simp, by simp, rfl, by
                  simp only [List.getElem?_cons_zero, Option.some.injEq, Channeled.map]
                  rw [Channeled.Stereo.injEq]
                  constructor <;> ring⟩
          | succ j =>
            have hj : j < ps.length := by simpa using hi
            obtain ⟨p2, c2, pc, h1, h2, h3, h4⟩ := ih cs rest hr j hj
            exact ⟨p2, c2, pc, by simpa using h1, by simpa using h2, h3, by simpa using h4⟩

/-- C2: on the first tick (no history) the emitted frame is the raw input
frame unchanged; on every later tick the emitted frame blends, per bin
and per channel, the frame this stage emitted on the previous tick
(`s.cur`, which the state invariantly holds as the last emission) with
the raw input as `alpha * previousSmoothed + (1 - alpha) * current`, and
becomes the new `cur`. -/
theorem exp_smoothing_first_raw_then_recursive (s : ExpState) (f out : List (Channeled ℚ)) :
    (s.atIdx = 0 → s.cur = [] → s.sourceFrames ≠ [] →
      s.sourceFrames[s.sourcePos]? = some f →
      ∃ s2, expNextFrame s = .ok (some f, s2) ∧ s2.cur = f)
    ∧ (0 < s.atIdx → s.atIdx ≠ s.sourceFrames.length → 1 ≤ s.nPrev →
        s.sourceFrames[s.sourcePos]? = some f →
        smoothInto s.alpha s.cur f = .ok out →
        ∃ s2, expNextFrame s = .ok (some out, s2) ∧ s2.cur = out
          ∧ s2.previous.head? = some s.cur
          ∧ ∀ i, i < s.cur.length →
              ∃ p c pc, s.cur[i]? = some p ∧ f[i]? = some c ∧ Channeled.zip p c = some pc
                ∧ out[i]? = some (pc.map (fun q => s.alpha * q.1 + (1 - s.alpha) * q.2))) := by
  constructor
  · intro h0 hcur hne hf
    have hlen : s.atIdx ≠ s.sourceFrames.length := by
      rw [h0]
      exact fun hc => hne (List.eq_nil_of_length_eq_zero hc.symm)
    refine ⟨{ s with sourcePos := s.sourcePos + 1, cur := s.cur ++ f, atIdx := s.atIdx + 1 }, ?_, ?_⟩
    · simp only [expNextFrame, if_neg hlen, hf]
      rw [if_neg (by omega)]
      simp [hcur]
    · simp [hcur]
  · intro hpos hlen hnp hf hsm
    obtain ⟨t, hp⟩ := pushPrev_ok s.cur s.previous s.nPrev hnp
    refine ⟨{ s with sourcePos := s.sourcePos + 1, cur := out, previous := s.cur :: t, atIdx := s.atIdx + 1 }, ?_, rfl, ?_, ?_⟩
    · simp only [expNextFrame, if_neg hlen, hf]
      rw [if_pos hpos, hp, ok_bind]
      simp only [hsm, ok_bind]
    · simp
    · exact smoothInto_spec s.alpha s.cur f out hsm

/-- C2 witness: a two-frame mono run with `alpha = 1/2`; the first tick
emits the raw `[2]`, the second emits `[3] = (1/2)·2 + (1/2)·4`. -/
theorem exp_smoothing_witness :
    ∃ s2, expNextFrame
        { sourceFrames := [[Channeled.Mono (2:ℚ)], [Channeled.Mono 4]], sourcePos := 1,
          cur := [Channeled.Mono 2], previous := [], nPrev := 1, alpha := 1/2, atIdx := 1 }
        = .ok (some [Channeled.Mono 3], s2) ∧ s2.cur = [Channeled.Mono 3]
      ∧ s2.previous.head? = some [Channeled.Mono 2]
      ∧ ∀ i, i < 1 →
          ∃ p c pc, [Channeled.Mono (2:ℚ)][i]? = some p
            ∧ [Channeled.Mono (4:ℚ)][i]? = some c ∧ Channeled.zip p c = some pc
            ∧ [Channeled.Mono (3:ℚ)][i]?
                = some (pc.map (fun q => (1/2 : ℚ) * q.1 + (1 - 1/2) * q.2)) := by
  obtain ⟨s2, h1, h2, h3, h4⟩ :=
    (exp_smoothing_first_raw_then_recursive
      { sourceFrames := [[Channeled.Mono (2:ℚ)], [Channeled.Mono 4]], sourcePos := 1,
        cur := [Channeled.Mono 2], previous := [], nPrev := 1, alpha := 1/2, atIdx := 1 }
      [Channeled.Mono 4] [Channeled.Mono 3]).2
      (by norm_num) (by norm_num) (by norm_num) (by simp)
      (by rw [smoothInto, smoothOne]; norm_num [smoothInto, ok_bind])
  exact ⟨s2, h1, h2, h3, h4⟩

/-- C3: with seek-back limit 1, after exactly two ticks (history holds
the tick-1 output), `seek_frame(-1)` does not succeed: the guard
`max_prev = previous.len() - 1` compares the seek distance against one
less than the retained history, so the stage reports it cannot seek
back even though the tick-1 frame is retained. -/
theorem exp_seek_back_one_fails_with_limit_one :
    (do
      let r1 ← expNextFrame
        { sourceFrames := [[Channeled.Mono (0:ℚ)], [Channeled.Mono 1], [Channeled.Mono 0]],
          sourcePos := 0, cur := [], previous := [], nPrev := 1, alpha := 1/2, atIdx := 0 }
      let r2 ← expNextFrame r1.2
      expSeekFrame r2.2 (-1))
      = .error "cannot seek further than 0 frames back" := by
  rfl

/-! ## Savitzky-Golay smoothing, `src/savitzky_golay.rs`

`Rational64` values are modelled as `ℚ`; the only panics of exact
rational arithmetic — division by zero (in `num_rational`) — are modelled
as explicit `Except` failures via `ratDiv`. The `k` and `s` arguments of
`gram_poly`, and the `m`, `n`, `s` arguments of `weight`, only ever hold
integer values (the loops pass integers and the recursion preserves
integrality), so they are modelled as `ℤ`. -/

/-- `Rational64` division: panics (errors) on a zero divisor, like
`num_rational`. -/
def ratDiv (a b : ℚ) : Except String ℚ :=
  if b = 0 then .error "division by zero" else .ok (a / b)

/-- Collect a fallible map over a list, stopping at the first failure —
the shape of `collect::<Result<Vec<_>>>()` and of mapping with `?`. -/
def collectE {α β : Type} (f : α → Except String β) : List α → Except String (List β)
  | [] => .ok []
  | x :: xs => do
      let y ← f x
      let ys ← collectE f xs
      .ok (y :: ys)

/-- `gram_poly` from `src/savitzky_golay.rs`: the Gram-polynomial
recurrence over exact rationals. The division is by
`k * (2m - k + 1)`, which is zero when `k = 2m + 1`. -/
def gram_poly (i m : ℚ) (k s : ℤ) : Except String ℚ :=
  if _h : 0 < k then do
    let r0 ← gram_poly i m (k - 1) s
    let r1 ← gram_poly i m (k - 1) (s - 1)
    let r2 ← gram_poly i m (k - 2) s
    let q1 ← ratDiv ((k : ℚ) * 4 - 2) ((k : ℚ) * (m * 2 - (k : ℚ) + 1))
    let q2 ← ratDiv (((k : ℚ) - 1) * (m * 2 + (k : ℚ))) ((k : ℚ) * (m * 2 - (k : ℚ) + 1))
    .ok (q1 * (i * r0 + (s : ℚ) * r1) - q2 * r2)
  else
    if k = 0 ∧ s = 0 then .ok 1 else .ok 0
termination_by k.toNat
decreasing_by all_goals omega

/-- `gen_fact(a, b)`: the product of `(a - b + 1) .. a`, written as the
source's accumulation loop (`j` runs from `a - b + 1` while `j ≤ a`). -/
def gen_fact (a b : ℤ) : ℚ :=
  (List.range b.toNat).foldl (fun g r => g * ((a - b + 1 + (r : ℤ) : ℤ) : ℚ)) 1

/-- One iteration of the `weight` loop:
`(2k + 1) * (genFact(2m, k) / genFact(2m + k + 1, k + 1)) * gramPoly(i, m, k, 0) * gramPoly(t, m, k, s)`. -/
def weightTerm (i t : ℚ) (m s : ℤ) (k : ℤ) : Except String ℚ := do
  let p0 ← gram_poly i (m : ℚ) k 0
  let p1 ← gram_poly t (m : ℚ) k s
  let fr ← ratDiv (gen_fact (m * 2) k) (gen_fact (m * 2 + k + 1) (k + 1))
  .ok (((k : ℚ) * 2 + 1) * fr * p0 * p1)

/-- `weight` from `src/savitzky_golay.rs`: sum the weight terms for
`k = 0 .. n`. -/
def weight (i t : ℚ) (m n s : ℤ) : Except String ℚ :=
  if n < 0 then .ok 0
  else
    (List.range (n.toNat + 1)).foldlM (fun w k => do
      let term ← weightTerm i t m s (k : ℤ)
      pure (w + term)) (0 : ℚ)

/-- `weights` from `src/savitzky_golay.rs`: the raw weights for
`i = -m .. m`, then each divided by their sum (the normalization; the
trailing `.reduced()` is the identity on `ℚ`). -/
def weights (m : ℤ) (t : ℚ) (n s : ℤ) : Except String (List ℚ) := do
  let fracs ← collectE (fun (i : ℕ) => weight (((i : ℤ) - m : ℤ) : ℚ) t m n s)
    (List.range (2 * m + 1).toNat)
  let sum := fracs.foldl (· + ·) 0
  collectE (fun f => ratDiv f sum) fracs

/-- `SavitzkyGolayConfig::compute_coefficients`: reject an even or
too-small window, then one `weights` row per time offset
`-half .. half`. -/
def compute_coefficients (windowSize degree order : ℕ) : Except String (List (List ℚ)) :=
  if windowSize % 2 = 0 ∨ windowSize < 3 then
    .error ("invalid window size " ++ toString windowSize)
  else
    let half : ℤ := (windowSize : ℤ) / 2
    collectE (fun (j : ℕ) => weights half ((-half + (j : ℤ) : ℤ) : ℚ) (degree : ℤ) (order : ℤ))
      (List.range (2 * half + 1).toNat)

/-- The `WindowPointer` of `src/savitzky_golay.rs` (`end` is a reserved
word in Lean, so the field is `endIdx`). -/
structure WindowPointer where
  start : ℕ
  endIdx : ℕ
  offset : ℤ
  deriving Repr, DecidableEq

/-- `SlidingWindow::next` as a pure function of the position `next`
(the iterator yields exactly the positions `0 ≤ next < size`): the edge
windows are pinned with a nonzero offset, interior windows are centered.
The `usize` arithmetic `(size - half_window) - 1` assumes
`half_window < size`, which the callers' frame-size contract provides. -/
def windowAt (window size : ℕ) (next : ℕ) : WindowPointer :=
  let halfWindow := window / 2
  let tailAt := (size - halfWindow) - 1
  if next ≤ halfWindow then
    { start := 0, endIdx := window, offset := (next : ℤ) - (halfWindow : ℤ) }
  else if next > tailAt then
    { start := size - window, endIdx := size, offset := ((next - tailAt : ℕ) : ℤ) }
  else
    { start := next - halfWindow, endIdx := next + halfWindow + 1, offset := 0 }

/-- The running sum of the convolution `fold1`: channel-wise addition,
failing on a mono/stereo mismatch (`"mixed mono/stereo?"`). -/
def chanAdd (a b : Channeled ℚ) : Except String (Channeled ℚ) :=
  match a.zip b with
  | some p => .ok (p.map (fun q => q.1 + q.2))
  | none => .error "mixed mono/stereo?"

/-- The per-window convolution of `SavitzkyGolayMapper::map`: multiply
the window's data pointwise with the coefficient row
(`multiply_rational_float`, exact over `ℚ`), then `fold1` the channel
values together; an empty window is the `"empty data?"` panic. -/
def windowDot (row : List ℚ) (data : List (Channeled ℚ)) : Except String (Channeled ℚ) :=
  match (data.zip row).map (fun vc => vc.1.map (fun x => x * vc.2)) with
  | [] => .error "empty data?"
  | h :: t => t.foldlM chanAdd h

/-- The per-position body of `SavitzkyGolayMapper::map`: select a
coefficient row by `win.offset + half_size` and convolve it with
`buf[win.start .. win.end]`; out-of-range indexing is the corresponding
Rust panic. -/
def savGolBody (coefficients : List (List ℚ)) (input : List (Channeled ℚ)) (i : ℕ) :
    Except String (Channeled ℚ) :=
  let halfSize := coefficients.length / 2
  let win := windowAt coefficients.length input.length i
  let rowIdx := win.offset + (halfSize : ℤ)
  if rowIdx < 0 then .error "index out of bounds"
  else
    match coefficients[rowIdx.toNat]? with
    | none => .error "index out of bounds"
    | some row =>
      if input.length < win.endIdx ∨ win.endIdx < win.start then
        .error "slice index out of bounds"
      else windowDot row ((input.drop win.start).take (win.endIdx - win.start))

/-- `SavitzkyGolayMapper::map`: the convolution body applied at every
input position, written back in place (so output length = input
length). -/
def savGolApply (coefficients : List (List ℚ)) (input : List (Channeled ℚ)) :
    Except String (List (Channeled ℚ)) :=
  collectE (savGolBody coefficients input) (List.range input.length)

/-- A successful `collectE` has one output per input. -/
theorem collectE_ok_length {α β : Type} (f : α → Except String β) :
    ∀ (l : List α) (out : List β), collectE f l = .ok out → out.length = l.length := by
  intro l
  induction l with
  | nil => intro out h; cases h; rfl
  | cons x xs ih =>
    intro out h
    rw [collectE] at h
    cases hy : f x with
    | error e => rw [hy, error_bind] at h; exact absurd h (by simp)
    | ok y =>
      rw [hy, ok_bind] at h
      cases hys : collectE f xs with
      | error e => rw [hys, error_bind] at h; exact absurd h (by simp)
      | ok ys =>
        rw [hys, ok_bind] at h
        cases h
        simp [ih ys hys]

/-- Every output of a successful `collectE` comes from the corresponding
input. -/
theorem collectE_ok_get {α β : Type} (f : α → Except String β) :
    ∀ (l : List α) (out : List β), collectE f l = .ok out →
      ∀ (i : ℕ) (x : α), l[i]? = some x → ∃ y, f x = .ok y ∧ out[i]? = some y := by
  intro l
  induction l with
  | nil => intro out h i x hx; simp at hx
  | cons a xs ih =>
    intro out h i x hx
    rw [collectE] at h
    cases hy : f a with
    | error e => rw [hy, error_bind] at h; exact absurd h (by simp)
    | ok y =>
      rw [hy, ok_bind] at h
      cases hys : collectE f xs with
      | error e => rw [hys, error_bind] at h; exact absurd h (by simp)
      | ok ys =>
        rw [hys, ok_bind] at h
        cases h
        cases i with
        | zero =>
          simp only [List.getElem?_cons_zero, Option.some.injEq] at hx
          exact ⟨y, hx ▸ hy, by simp⟩
        | succ j =>
          simp only [List.getElem?_cons_succ] at hx
          obtain ⟨z, hz1, hz2⟩ := ih ys hys j x hx
          exact ⟨z, hz1, by simpa using hz2⟩

/-- Every output of a successful `collectE` comes from some input. -/
theorem collectE_ok_mem {α β : Type} (f : α → Except String β) :
    ∀ (l : List α) (out : List β), collectE f l = .ok out →
      ∀ y ∈ out, ∃ x ∈ l, f x = .ok y := by
  intro l
  induction l with
  | nil => intro out h y hy; cases h; simp at hy
  | cons a xs ih =>
    intro out h y hy
    rw [collectE] at h
    cases hz : f a with
    | error e => rw [hz, error_bind] at h; exact absurd h (by simp)
    | ok z =>
      rw [hz, ok_bind] at h
      cases hzs : collectE f xs with
      | error e => rw [hzs, error_bind] at h; exact absurd h (by simp)
      | ok zs =>
        rw [hzs, ok_bind] at h
        cases h
        cases hy with
        | head => exact ⟨a, by simp, hz⟩
        | tail _ hmem =>
          obtain ⟨x, hx1, hx2⟩ := ih zs hzs y hmem
          exact ⟨x, by simp [hx1], hx2⟩

/-- Folding channel-wise addition over all-`Mono` values accumulates the
sum. -/
theorem foldlM_chanAdd_mono (qs : List ℚ) :
    ∀ a : ℚ, List.foldlM chanAdd (Channeled.Mono a) (qs.map Channeled.Mono)
      = .ok (.Mono (a + qs.sum)) := by
  induction qs with
  | nil => intro a; rw [List.map_nil, List.foldlM_nil, List.sum_nil, add_zero]; rfl
  | cons q l ih =>
    intro a
    simp only [List.map_cons, List.foldlM_cons]
    rw [show chanAdd (.Mono a) (.Mono q) = .ok (.Mono (a + q)) from rfl]
    rw [show ((Except.ok (Channeled.Mono (a + q)) : Except String (Channeled ℚ)) >>= fun b =>
      List.foldlM chanAdd b (l.map Channeled.Mono))
        = List.foldlM chanAdd (.Mono (a + q)) (l.map .Mono) from rfl]
    rw [ih]
    simp [add_assoc]

/-- Folding channel-wise addition over all-`Stereo` values accumulates
both channel sums. -/
theorem foldlM_chanAdd_stereo (qs : List ℚ) :
    ∀ (rs : List ℚ) (a b : ℚ), qs.length = rs.length →
      List.foldlM chanAdd (Channeled.Stereo a b) (List.zipWith Channeled.Stereo qs rs)
        = .ok (.Stereo (a + qs.sum) (b + rs.sum)) := by
  induction qs with
  | nil =>
    intro rs a b h
    cases rs with
    | nil => rw [List.zipWith_nil_right, List.foldlM_nil, List.sum_nil, add_zero, add_zero]; rfl
    | cons r rs2 => simp at h
  | cons q l ih =>
    intro rs a b h
    cases rs with
    | nil => simp at h
    | cons r rs2 =>
      simp only [List.length_cons, Nat.add_right_cancel_iff] at h
      simp only [List.zipWith_cons_cons, List.foldlM_cons]
      rw [show chanAdd (.Stereo a b) (.Stereo q r) = .ok (.Stereo (a + q) (b + r)) from rfl]
      rw [show ((Except.ok (Channeled.Stereo (a + q) (b + r)) : Except String (Channeled ℚ))
        >>= fun c => List.foldlM chanAdd c (List.zipWith Channeled.Stereo l rs2))
          = List.foldlM chanAdd (.Stereo (a + q) (b + r)) (List.zipWith Channeled.Stereo l rs2)
        from rfl]
      rw [ih rs2 (a + q) (b + r) h]
      simp [add_assoc]

/-- The elementwise multiply of the convolution on an all-`Mono` window. -/
theorem zip_map_mono_mul (xs : List ℚ) :
    ∀ row : List ℚ,
      ((xs.map Channeled.Mono).zip row).map (fun vc => vc.1.map (fun x => x * vc.2))
        = (List.zipWith (fun x c => x * c) xs row).map Channeled.Mono := by
  induction xs with
  | nil => intro row; simp
  | cons x l ih =>
    intro row
    cases row with
    | nil => simp
    | cons c cs =>
      simp only [List.map_cons, List.zip_cons_cons, List.zipWith_cons_cons, ih]
      rfl

/-- The elementwise multiply of the convolution on an all-`Stereo`
window. -/
theorem zip_map_stereo_mul (las : List ℚ) :
    ∀ lbs row : List ℚ,
      ((List.zipWith Channeled.Stereo las lbs).zip row).map
          (fun vc => vc.1.map (fun x => x * vc.2))
        = List.zipWith Channeled.Stereo (List.zipWith (fun x c => x * c) las row)
            (List.zipWith (fun x c => x * c) lbs row) := by
  induction las with
  | nil => intro lbs row; simp
  | cons x l ih =>
    intro lbs row
    cases lbs with
    | nil => simp
    | cons y lb2 =>
      cases row with
      | nil => simp
      | cons c cs =>
        simp only [List.zipWith_cons_cons, List.zip_cons_cons, List.map_cons, ih]
        rfl

/-- The convolution of a row with an all-`Mono` window of equal length is
the mono pointwise product-sum. -/
theorem windowDot_mono (row xs : List ℚ) (hne : xs ≠ []) (hlen : row.length = xs.length) :
    windowDot row (xs.map Channeled.Mono)
      = .ok (.Mono ((List.zipWith (fun x c => x * c) xs row).sum)) := by
  unfold windowDot
  rw [zip_map_mono_mul]
  cases xs with
  | nil => exact absurd rfl hne
  | cons x l =>
    cases row with
    | nil => simp at hlen
    | cons c cs =>
      simp only [List.zipWith_cons_cons, List.map_cons]
      show List.foldlM chanAdd (.Mono (x * c))
        ((List.zipWith (fun x c => x * c) l cs).map .Mono) = _
      rw [foldlM_chanAdd_mono]
      simp

/-- The convolution of a row with an all-`Stereo` window of equal length
is the stereo pointwise product-sum, channel by channel. -/
theorem windowDot_stereo (row las lbs : List ℚ) (hne : las ≠ [])
    (hll : las.length = lbs.length) (hlen : row.length = las.length) :
    windowDot row (List.zipWith Channeled.Stereo las lbs)
      = .ok (.Stereo ((List.zipWith (fun x c => x * c) las row).sum)
          ((List.zipWith (fun x c => x * c) lbs row).sum)) := by
  unfold windowDot
  rw [zip_map_stereo_mul]
  cases las with
  | nil => exact absurd rfl hne
  | cons x l =>
    cases lbs with
    | nil => simp at hll
    | cons y lb2 =>
      cases row with
      | nil => simp at hlen
      | cons c cs =>
        simp only [List.zipWith_cons_cons]
        show List.foldlM chanAdd (.Stereo (x * c) (y * c))
          (List.zipWith Channeled.Stereo (List.zipWith (fun x c => x * c) l cs)
            (List.zipWith (fun x c => x * c) lb2 cs)) = _
        rw [foldlM_chanAdd_stereo _ _ _ _ (by
          simp only [List.length_cons, Nat.add_right_cancel_iff] at hll hlen
          simp [List.length_zipWith]; omega)]
        simp

/-- Near the left edge (`i ≤ M`) the window is pinned to the start and
the selected row index equals the position itself. -/
theorem savGolBody_left (coefficients : List (List ℚ)) (input : List (Channeled ℚ)) (M i : ℕ)
    (hW : coefficients.length = 2 * M + 1) (hK : 2 * M + 1 ≤ input.length) (hi : i ≤ M) :
    savGolBody coefficients input i
      = windowDot (coefficients.getD i []) (input.take (2 * M + 1)) := by
  have hhalf : coefficients.length / 2 = M := by omega
  have hib : i < coefficients.length := by omega
  simp only [savGolBody, windowAt, hhalf]
  rw [if_pos hi]
  have h1 : ((i : ℤ) - (M : ℤ) + (M : ℤ)).toNat = i := by omega
  rw [if_neg (show ¬((i : ℤ) - (M : ℤ) + (M : ℤ) < 0) by omega), h1,
    List.getElem?_eq_getElem hib]
  dsimp only
  rw [if_neg (show ¬(input.length < coefficients.length ∨ coefficients.length < 0) by omega)]
  rw [List.getD_eq_getElem coefficients [] hib]
  simp [hW]

/-- At interior positions (`M < i`, `i + M + 1 ≤ len`) the window is
centered on the position and the center row is selected. -/
theorem savGolBody_mid (coefficients : List (List ℚ)) (input : List (Channeled ℚ)) (M i : ℕ)
    (hW : coefficients.length = 2 * M + 1) (hi1 : M < i) (hi2 : i + M + 1 ≤ input.length) :
    savGolBody coefficients input i
      = windowDot (coefficients.getD M []) ((input.drop (i - M)).take (2 * M + 1)) := by
  have hhalf : coefficients.length / 2 = M := by omega
  have hMb : M < coefficients.length := by omega
  simp only [savGolBody, windowAt, hhalf]
  rw [if_neg (show ¬(i ≤ M) by omega)]
  rw [if_neg (show ¬(i > input.length - M - 1) by omega)]
  dsimp only
  rw [if_neg (show ¬((0 : ℤ) + (M : ℤ) < 0) by omega)]
  rw [show ((0 : ℤ) + (M : ℤ)).toNat = M by omega, List.getElem?_eq_getElem hMb]
  dsimp only
  rw [if_neg (show ¬(input.length < i + M + 1 ∨ i + M + 1 < i - M) by omega)]
  rw [List.getD_eq_getElem coefficients [] hMb]
  rw [show i + M + 1 - (i - M) = 2 * M + 1 by omega]

/-- Near the right edge (`i + M + 1 > len`) the window is pinned to the
end and the selected row index is shifted up by the window's shift. -/
theorem savGolBody_right (coefficients : List (List ℚ)) (input : List (Channeled ℚ)) (M i : ℕ)
    (hW : coefficients.length = 2 * M + 1) (hK : 2 * M + 1 ≤ input.length)
    (hi1 : input.length < i + M + 1) (hi2 : i < input.length) :
    savGolBody coefficients input i
      = windowDot (coefficients.getD (i - (input.length - (2 * M + 1))) [])
          ((input.drop (input.length - (2 * M + 1))).take (2 * M + 1)) := by
  have hhalf : coefficients.length / 2 = M := by omega
  have hRb : i - (input.length - (2 * M + 1)) < coefficients.length := by omega
  simp only [savGolBody, windowAt, hhalf]
  rw [if_neg (show ¬(i ≤ M) by omega)]
  rw [if_pos (show i > input.length - M - 1 by omega)]
  dsimp only
  rw [if_neg (show ¬(((i - (input.length - M - 1) : ℕ) : ℤ) + (M : ℤ) < 0) by omega)]
  rw [show (((i - (input.length - M - 1) : ℕ) : ℤ) + (M : ℤ)).toNat
    = i - (input.length - (2 * M + 1)) by omega]
  rw [List.getElem?_eq_getElem hRb]
  dsimp only
  rw [if_neg (show ¬(input.length < input.length
    ∨ input.length < input.length - coefficients.length) by omega)]
  rw [List.getD_eq_getElem coefficients [] hRb]
  rw [show input.length - (input.length - coefficients.length) = 2 * M + 1 by omega, hW]

/-- C6: a successful Savitzky-Golay apply has output length equal to
input length, and at every position the emitted value is the convolution
(`windowDot`) of a clamped-window selection: interior positions
(distance at least `M` from both edges) use the center row `M` over the
window centered on the position; positions within `M` of the left edge
use the window pinned to the start with row index `i` (the center row
shifted down by exactly the window's shift `M - i`); positions within
`M` of the right edge use the window pinned to the end with the row
index shifted up by exactly the window's shift; and `windowDot` is the
pointwise product-sum of the row with the window's data, per channel. -/
theorem savgol_apply_clamped_selection (coefficients : List (List ℚ))
    (input out : List (Channeled ℚ)) (M : ℕ)
    (hW : coefficients.length = 2 * M + 1) (hK : 2 * M + 1 ≤ input.length)
    (h : savGolApply coefficients input = .ok out) :
    out.length = input.length
    ∧ (∀ i, i < input.length →
        ∃ v, out[i]? = some v
          ∧ windowDot
              (coefficients.getD (if i < M then i else if i + M + 1 ≤ input.length then M
                else i - (input.length - (2 * M + 1))) [])
              ((input.drop (if i < M then 0 else if i + M + 1 ≤ input.length then i - M
                else input.length - (2 * M + 1))).take (2 * M + 1)) = .ok v)
    ∧ (∀ (row xs : List ℚ), xs ≠ [] → row.length = xs.length →
        windowDot row (xs.map Channeled.Mono)
          = .ok (.Mono ((List.zipWith (fun x c => x * c) xs row).sum)))
    ∧ (∀ (row las lbs : List ℚ), las ≠ [] → las.length = lbs.length →
        row.length = las.length →
        windowDot row (List.zipWith Channeled.Stereo las lbs)
          = .ok (.Stereo ((List.zipWith (fun x c => x * c) las row).sum)
              ((List.zipWith (fun x c => x * c) lbs row).sum))) := by
  refine ⟨?_, ?_, windowDot_mono, windowDot_stereo⟩
  · rw [savGolApply] at h
    simpa using collectE_ok_length _ _ _ h
  · intro i hi
    rw [savGolApply] at h
    obtain ⟨v, hfi, hout⟩ := collectE_ok_get _ _ _ h i i (List.getElem?_range hi)
    by_cases c1 : i < M
    · rw [savGolBody_left coefficients input M i hW hK (by omega)] at hfi
      rw [if_pos c1, if_pos c1, List.drop_zero]
      exact ⟨v, hout, hfi⟩
    · by_cases c2 : i + M + 1 ≤ input.length
      · rw [if_neg c1, if_neg c1, if_pos c2, if_pos c2]
        by_cases cM : i = M
        · rw [savGolBody_left coefficients input M i hW hK (by omega)] at hfi
          refine ⟨v, hout, ?_⟩
          rw [← hfi, cM]
          rw [show M - M = 0 by omega, List.drop_zero]
        · rw [savGolBody_mid coefficients input M i hW (by omega) c2] at hfi
          exact ⟨v, hout, hfi⟩
      · rw [if_neg c1, if_neg c1, if_neg c2, if_neg c2]
        rw [savGolBody_right coefficients input M i hW hK (by omega) hi] at hfi
        exact ⟨v, hout, hfi⟩

/-- Folding addition from an accumulator adds the list sum. -/
theorem foldl_add_eq (l : List ℚ) : ∀ a : ℚ, l.foldl (· + ·) a = a + l.sum := by
  induction l with
  | nil => intro a; simp
  | cons x xs ih => intro a; simp [ih, add_assoc]

/-- Dividing every element of a list divides its sum. -/
theorem sum_map_div (l : List ℚ) (d : ℚ) :
    (l.map (fun x => x / d)).sum = l.sum / d := by
  induction l with
  | nil => simp
  | cons x xs ih => simp [ih, add_div]

/-- A successful normalization pass divides every element by `d`, and on
a nonempty list certifies `d ≠ 0` (a zero divisor panics). -/
theorem collectE_ratDiv (d : ℚ) :
    ∀ (l out : List ℚ), collectE (fun f => ratDiv f d) l = .ok out →
      out = l.map (fun f => f / d) ∧ (l = [] ∨ d ≠ 0) := by
  intro l
  induction l with
  | nil => intro out h; cases h; exact ⟨rfl, Or.inl rfl⟩
  | cons x xs ih =>
    intro out h
    rw [collectE] at h
    by_cases hd : d = 0
    · rw [show ratDiv x d = .error "division by zero" by rw [ratDiv, if_pos hd]] at h
      rw [error_bind] at h
      exact absurd h (by simp)
    · rw [show ratDiv x d = .ok (x / d) by rw [ratDiv, if_neg hd]] at h
      rw [ok_bind] at h
      cases hxs : collectE (fun f => ratDiv f d) xs with
      | error e => rw [hxs, error_bind] at h; exact absurd h (by simp)
      | ok ys =>
        rw [hxs, ok_bind] at h
        cases h
        obtain ⟨hys, _⟩ := ih ys hxs
        exact ⟨by rw [hys, List.map_cons], Or.inr hd⟩

/-- A row successfully produced by `weights` sums to exactly 1: the
normalization divides the raw weights by their own sum, and its success
certifies that this sum is nonzero. -/
theorem weights_ok_sum (m n s : ℤ) (t : ℚ) (hm : 0 ≤ m) (row : List ℚ)
    (h : weights m t n s = .ok row) : row.sum = 1 := by
  rw [weights] at h
  cases hf : collectE (fun (i : ℕ) => weight (((i : ℤ) - m : ℤ) : ℚ) t m n s)
      (List.range (2 * m + 1).toNat) with
  | error e => rw [hf, error_bind] at h; exact absurd h (by simp)
  | ok fracs =>
    rw [hf, ok_bind] at h
    obtain ⟨hrow, hcase⟩ := collectE_ratDiv _ fracs row h
    have hne : fracs ≠ [] := by
      have hl := collectE_ok_length _ _ _ hf
      intro hnil
      rw [hnil] at hl
      simp only [List.length_nil, List.length_range] at hl
      omega
    have hd : fracs.foldl (· + ·) 0 ≠ 0 := by
      rcases hcase with hnil | hd
      · exact absurd hnil hne
      · exact hd
    have hsum : fracs.foldl (· + ·) 0 = fracs.sum := by
      rw [foldl_add_eq, zero_add]
    rw [hrow, sum_map_div, hsum]
    rw [hsum] at hd
    exact div_self hd

/-- C7: for every configuration accepted by the setup (odd window size at
least 3), with derivative order 0, every coefficient row the setup
produces sums to exactly 1 under exact rational arithmetic after
normalization. (Setups that panic — rejected window sizes, or the
division by zero that `gram_poly` hits when the degree reaches the window
size — produce no rows.) -/
theorem savgol_normalized_rows_sum_one (windowSize degree : ℕ) (rows : List (List ℚ))
    (h : compute_coefficients windowSize degree 0 = .ok rows) :
    ∀ row ∈ rows, row.sum = 1 := by
  rw [compute_coefficients] at h
  by_cases hw : windowSize % 2 = 0 ∨ windowSize < 3
  · rw [if_pos hw] at h
    exact absurd h (by simp)
  · rw [if_neg hw] at h
    intro row hrow
    obtain ⟨x, _, hfx⟩ := collectE_ok_mem _ _ _ h row hrow
    exact weights_ok_sum ((windowSize : ℤ) / 2) _ _ _
      (Int.ediv_nonneg (Int.ofNat_nonneg _) (by norm_num)) row hfx

/-- The positions list of a three-element frame. -/
theorem range_three : List.range 3 = [0, 1, 2] := by
  simp [List.range_succ]

/-- C6 witness: the identity 3×3 coefficient table applied to the mono
frame `[1, 2, 3]`; position 2 is within `M = 1` of the right edge, so it
selects row 2 over the window pinned to the end. -/
theorem savgol_selection_witness :
    ∃ v, ([Channeled.Mono (1:ℚ), .Mono 2, .Mono 3])[2]? = some v
      ∧ windowDot ([[(1:ℚ), 0, 0], [0, 1, 0], [0, 0, 1]].getD 2 [])
          ((([Channeled.Mono (1:ℚ), .Mono 2, .Mono 3]).drop 0).take (2 * 1 + 1)) = .ok v := by
  have h0 : savGolBody [[(1:ℚ), 0, 0], [0, 1, 0], [0, 0, 1]]
      [Channeled.Mono (1:ℚ), .Mono 2, .Mono 3] 0 = .ok (.Mono 1) := by
    rw [show ([Channeled.Mono (1:ℚ), .Mono 2, .Mono 3]) = [(1:ℚ), 2, 3].map Channeled.Mono
      from rfl]
    rw [savGolBody_left _ _ 1 0 (by rfl) (by norm_num) (by norm_num)]
    rw [show ([(1:ℚ), 2, 3].map Channeled.Mono).take (2 * 1 + 1)
      = [(1:ℚ), 2, 3].map Channeled.Mono from rfl]
    rw [windowDot_mono _ _ (by simp) (by simp)]
    norm_num
  have h1 : savGolBody [[(1:ℚ), 0, 0], [0, 1, 0], [0, 0, 1]]
      [Channeled.Mono (1:ℚ), .Mono 2, .Mono 3] 1 = .ok (.Mono 2) := by
    rw [show ([Channeled.Mono (1:ℚ), .Mono 2, .Mono 3]) = [(1:ℚ), 2, 3].map Channeled.Mono
      from rfl]
    rw [savGolBody_left _ _ 1 1 (by rfl) (by norm_num) (by norm_num)]
    rw [show ([(1:ℚ), 2, 3].map Channeled.Mono).take (2 * 1 + 1)
      = [(1:ℚ), 2, 3].map Channeled.Mono from rfl]
    rw [windowDot_mono _ _ (by simp) (by simp)]
    norm_num
  have h2 : savGolBody [[(1:ℚ), 0, 0], [0, 1, 0], [0, 0, 1]]
      [Channeled.Mono (1:ℚ), .Mono 2, .Mono 3] 2 = .ok (.Mono 3) := by
    rw [show ([Channeled.Mono (1:ℚ), .Mono 2, .Mono 3]) = [(1:ℚ), 2, 3].map Channeled.Mono
      from rfl]
    rw [savGolBody_right _ _ 1 2 (by rfl) (by norm_num) (by norm_num) (by norm_num)]
    rw [show (([(1:ℚ), 2, 3].map Channeled.Mono).drop
      (([(1:ℚ), 2, 3].map Channeled.Mono).length - (2 * 1 + 1))).take (2 * 1 + 1)
      = [(1:ℚ), 2, 3].map Channeled.Mono from rfl]
    rw [windowDot_mono _ _ (by simp) (by simp)]
    norm_num
  have happ : savGolApply [[(1:ℚ), 0, 0], [0, 1, 0], [0, 0, 1]]
      [Channeled.Mono (1:ℚ), .Mono 2, .Mono 3]
      = .ok [Channeled.Mono (1:ℚ), .Mono 2, .Mono 3] := by
    rw [savGolApply]
    rw [show ([Channeled.Mono (1:ℚ), .Mono 2, .Mono 3]).length = 3 from rfl, range_three]
    rw [collectE, h0, ok_bind, collectE, h1, ok_bind, collectE, h2, ok_bind, collectE]
    rfl
  have hmain := (savgol_apply_clamped_selection _ _ _ 1 (by rfl) (by norm_num) happ).2.1 2
    (by norm_num)
  simpa using hmain

/-- `gram_poly` at `k = 0`, `s = 0` is the constant 1. -/
theorem gram_poly_zero (x m : ℚ) : gram_poly x m 0 0 = .ok 1 := by
  rw [gram_poly]
  norm_num

/-- A degree-0 raw weight is `1/3` for the minimal window (`m = 1`),
whatever the evaluation point and time offset. -/
theorem weight_deg_zero (a t : ℚ) : weight a t 1 0 0 = .ok (1/3) := by
  rw [weight]
  norm_num [weightTerm, gram_poly_zero, gen_fact, ratDiv, ok_bind, List.foldlM,
    List.range_succ, collectE]

/-- The degree-0 rows of the minimal window before stacking. -/
theorem weights_deg_zero (t : ℚ) : weights 1 t 0 0 = .ok [1/3, 1/3, 1/3] := by
  rw [weights]
  rw [show ((2 * (1:ℤ) + 1).toNat) = 3 from rfl, range_three]
  rw [collectE, weight_deg_zero, ok_bind, collectE, weight_deg_zero, ok_bind,
    collectE, weight_deg_zero, ok_bind, collectE, ok_bind]
  norm_num [collectE, ratDiv, ok_bind, List.foldl]

/-- C7 witness: the window-3, degree-0, order-0 setup produces three
rows `[1/3, 1/3, 1/3]`, and the first row sums to exactly 1 by the main
theorem. -/
theorem savgol_sum_witness :
    compute_coefficients 3 0 0
        = .ok [[(1/3 : ℚ), 1/3, 1/3], [1/3, 1/3, 1/3], [1/3, 1/3, 1/3]]
      ∧ ([(1/3 : ℚ), 1/3, 1/3]).sum = 1 := by
  have hcc : compute_coefficients 3 0 0
      = .ok [[(1/3 : ℚ), 1/3, 1/3], [1/3, 1/3, 1/3], [1/3, 1/3, 1/3]] := by
    rw [compute_coefficients]
    norm_num
    rw [show (Int.toNat 3) = 3 from rfl, range_three]
    rw [collectE, weights_deg_zero, ok_bind, collectE, weights_deg_zero, ok_bind,
      collectE, weights_deg_zero, ok_bind, collectE]
    rfl
  exact ⟨hcc, savgol_normalized_rows_sum_one 3 0 _ hcc [(1/3 : ℚ), 1/3, 1/3] (by simp)⟩

/-! ## Binning, `src/binner.rs`

`f64` arithmetic is modelled over `ℚ`; `f64::powf` is an external
intrinsic and is a parameter `pw` (the concrete theorems only constrain
it at exponent 1, where IEEE 754 `pow` is exact). `f64::round` rounds
half away from zero. -/

/-- `f64::round`: round half away from zero, then the `as isize` cast. -/
def rustRound (q : ℚ) : ℤ :=
  if 0 ≤ q then ⌊q + 1/2⌋ else ⌈q - 1/2⌉

/-- `BinConfig` from `src/binner.rs`. -/
structure BinConfig where
  bins : ℕ
  input_size : ℕ
  sample_rate : ℕ
  fmin : ℚ
  fmax : ℚ
  gamma : ℚ
  deriving Repr

/-- Record the smallest source index seen for a target bin
(the `Some(existing)/None` match of the scan). -/
def updateMin (out : List (Option ℕ)) (idx : ℕ) (i : ℕ) : List (Option ℕ) :=
  out.set idx (match out.getD idx none with
    | some existing => some (min existing i)
    | none => some i)

/-- The scan loop of `compute_bin_indexes`: skip indices below `fmin`,
compute the gamma-warped target bin, clamp the final bin and stop once it
is reached, and record, per target bin, the smallest source index mapped
to it. -/
def binScan (pw : ℚ → ℚ → ℚ) (fmin freqRange bandwidth gammaInv : ℚ) (numBins : ℕ) :
    List ℕ → List (Option ℕ) → List (Option ℕ)
  | [], out => out
  | i :: rest, out =>
    let fStart := (i : ℚ) * bandwidth
    if fStart < fmin then binScan pw fmin freqRange bandwidth gammaInv numBins rest out
    else
      let binIdx : ℤ := rustRound (pw ((fStart - fmin) / freqRange) gammaInv * (numBins : ℚ))
      if binIdx < 0 then binScan pw fmin freqRange bandwidth gammaInv numBins rest out
      else
        let isLast := (numBins : ℤ) ≤ binIdx
        let binIdx2 : ℕ := if isLast then numBins else binIdx.toNat
        let out2 := updateMin out binIdx2 i
        if isLast then out2
        else binScan pw fmin freqRange bandwidth gammaInv numBins rest out2

/-- The boundary-collection loop of `compute_bin_indexes`: keep the
discovered boundaries, and once any boundary has been seen, a missing one
(a gap) is the `"did not discover good range for bin"` panic. -/
def collectBoundaries : List (Option ℕ) → Bool → ℕ → Except String (List ℕ)
  | [], _, _ => .ok []
  | some v :: rest, _, idx => do
      let tail ← collectBoundaries rest true (idx + 1)
      .ok (v :: tail)
  | none :: rest, hasAny, idx =>
      if hasAny then .error ("did not discover good range for bin " ++ toString idx)
      else collectBoundaries rest false (idx + 1)

/-- `compute_bin_indexes` from `src/binner.rs`: scan, collect boundaries
(panicking on a gap), and when fewer bins than desired were found, retry
with one more bin. The Rust recursion carries no bound at all, so the
model makes the missing bound explicit as fuel: exhausting it is an
outcome the source cannot produce — it recurses forever instead. -/
def compute_bin_indexes (pw : ℚ → ℚ → ℚ) (cfg : BinConfig) :
    ℕ → ℕ → Except String (List ℕ)
  | 0, _ => .error "unreachable: the source recursion has no bound"
  | fuel + 1, numBins => do
      let totalMaxFreq : ℚ := (cfg.sample_rate : ℚ) / 2
      let bandwidth := totalMaxFreq / (cfg.input_size : ℚ)
      let gammaInv := 1 / cfg.gamma
      let freqRange := cfg.fmax - cfg.fmin
      let out := binScan pw cfg.fmin freqRange bandwidth gammaInv numBins
        (List.range cfg.input_size) (List.replicate (numBins + 1) none)
      let finOut ← collectBoundaries out false 0
      match finOut with
      | [] => .error "attempt to subtract with overflow"
      | _ :: _ =>
        if finOut.length - 1 < cfg.bins then
          compute_bin_indexes pw cfg fuel (numBins + 1)
        else .ok finOut

/-- C1: the bin-boundary search does not convert an unsatisfiable
configuration into a configuration error, and a gap does not trigger a
retry: with `fmax = 100` far beyond the Nyquist frequency 8 of a
16 Hz / 2-sample configuration, bins 1 and 2 never receive a boundary
after bin 0 does, and the very first search attempt panics with
`"did not discover good range for bin 1"` (no retry with `binCount+1`
happens, and the retry recursion that does exist for undershoot carries
no bound at all). `pw` is `f64::powf`, exact at exponent 1. -/
theorem binner_gap_is_panic_not_retry (pw : ℚ → ℚ → ℚ) (hpw : ∀ x, pw x 1 = x) (f : ℕ) :
    compute_bin_indexes pw
        { bins := 2, input_size := 2, sample_rate := 16, fmin := 1, fmax := 100, gamma := 1 }
        (f + 1) 2
      = .error "did not discover good range for bin 1" := by
  rw [compute_bin_indexes]
  dsimp only
  rw [show List.range 2 = [0, 1] by simp [List.range_succ]]
  norm_num [binScan, rustRound, hpw, updateMin, collectBoundaries, ok_bind, error_bind]
  rfl

/-- C1 witness: the failing configuration evaluated with the exact
power function at exponent 1. -/
theorem binner_gap_is_panic_not_retry_witness :
    compute_bin_indexes (fun x _ => x)
        { bins := 2, input_size := 2, sample_rate := 16, fmin := 1, fmax := 100, gamma := 1 }
        1 2
      = .error "did not discover good range for bin 1" :=
  binner_gap_is_panic_not_retry (fun x _ => x) (fun _ => rfl) 0

/-- State of `Binner`: the per-bin accumulation buffers, the output
buffer, the boundary table, the bin count and the configured input
size. -/
structure BinnerState where
  bufs : List (List ℚ)
  out_buf : List ℚ
  indexes : List ℕ
  n_bins : ℕ
  in_size : ℕ
  deriving Repr

/-- `Binner::aggregate_bufs`: drain every accumulation buffer, divide its
sum by the fixed input frame length, and collect into the output
buffer. -/
def binner_aggregate (s : BinnerState) : BinnerState :=
  { s with out_buf := s.bufs.map (fun b => b.sum / (s.in_size : ℚ)),
           bufs := s.bufs.map (fun _ => []) }

/-- The accumulation loop of `Binner::map`: a monotonic two-pointer walk
pushing each value into the current bin's buffer, stopping once the bin
pointer passes the last bin. In the `ℚ` model every value is finite, so
the `is_finite` skip never fires. -/
def binnerScan (indexes : List ℕ) (nBins : ℕ) :
    List (ℕ × ℚ) → ℕ → List (List ℚ) → Except String (ℕ × List (List ℚ))
  | [], binIdx, bufs => .ok (binIdx, bufs)
  | (idx, elem) :: rest, binIdx, bufs =>
    match indexes[binIdx]? with
    | none => .error "index out of bounds"
    | some thisBinStart =>
      if idx < thisBinStart then binnerScan indexes nBins rest binIdx bufs
      else
        match indexes[binIdx + 1]? with
        | none => .error "index out of bounds"
        | some nextBinStart =>
          let binIdx2 := if nextBinStart ≤ idx then binIdx + 1 else binIdx
          if nBins ≤ binIdx2 then .ok (binIdx2, bufs)
          else
            binnerScan indexes nBins rest binIdx2
              (bufs.set binIdx2 (bufs.getD binIdx2 [] ++ [elem]))

/-- `Binner::map`: a frame whose length differs from the configured input
size is an empty tick (`Ok(None)`) with the state untouched; otherwise
accumulate and aggregate. -/
def binnerMap (s : BinnerState) (input : List ℚ) :
    Except String (Option (List ℚ) × BinnerState) :=
  if input.length ≠ s.in_size then .ok (none, s)
  else do
    let r ← binnerScan s.indexes s.n_bins input.enum 0 s.bufs
    let s2 := binner_aggregate { s with bufs := r.2 }
    .ok (some s2.out_buf, s2)

/-- C10: `Binner::map` on a frame whose length differs from the
configured input size returns an empty tick (`Ok(None)`), not an error,
leaves the whole binner state (accumulation buffers included) unchanged,
and a subsequent frame is therefore processed exactly as if the
wrong-size frame had never been seen. -/
theorem binner_wrong_size_empty_tick (s : BinnerState) (input : List ℚ)
    (h : input.length ≠ s.in_size) :
    binnerMap s input = .ok (none, s)
      ∧ ∀ input2, (binnerMap s input).bind (fun r => binnerMap r.2 input2)
          = binnerMap s input2 := by
  have h1 : binnerMap s input = .ok (none, s) := by
    rw [binnerMap, if_pos h]
  exact ⟨h1, fun input2 => by rw [h1]; rfl⟩

/-- C10 witness: a three-element frame into a binner configured for
two-element frames is an empty tick with unchanged state. -/
theorem binner_wrong_size_empty_tick_witness :
    binnerMap { bufs := [[]], out_buf := [], indexes := [0, 2], n_bins := 1, in_size := 2 }
        [1, 2, 3]
      = .ok (none,
        { bufs := [[]], out_buf := [], indexes := [0, 2], n_bins := 1, in_size := 2 }) :=
  (binner_wrong_size_empty_tick _ _ (by norm_num)).1

end VizRs
